import Mathlib

/-!
Shallow embedding of fetch_icons.py: a batch tool that downloads bookmark
icons and rewrites the icon field of each record to the chosen local path.

Python strings are modelled as `List Char` (a Python str is a sequence of
code points).  Library primitives whose exact Unicode tables are outside the
program text (the re character classes for word and whitespace characters,
urllib unquote, str lower, the path component returned by urlparse, the
mimetypes guess, Path resolve and Path relative_to) enter as explicit
function parameters; every theorem that needs a fact about one of them
carries that fact as a hypothesis (each such fact holds for the actual
Python function), and witnesses instantiate them with concrete executable
definitions given below.  The filesystem is modelled as the finite list of
names already present in the output directory, and the outcome of each
fetch task as an oracle indexed by record position.
-/

/-- Unicode control characters (category Cc): U+0000 to U+001F and U+007F to U+009F. -/
def isCtl (c : Char) : Bool := c.toNat < 32 || (127 ≤ c.toNat && c.toNat ≤ 159)

/-- Python whitespace restricted to the ASCII range (str.isspace and the re
whitespace class agree there): TAB..CR, FS..US and the space character. -/
def pySpaceChar (c : Char) : Bool :=
  (9 ≤ c.toNat && c.toNat ≤ 13) || (28 ≤ c.toNat && c.toNat ≤ 31) || c.toNat == 32

/-- ASCII word characters, the ASCII part of the Python re word class:
letters, digits and the underscore.  Used to instantiate the parametric
word classifier in witnesses. -/
def asciiWordChar (c : Char) : Bool :=
  (65 ≤ c.toNat && c.toNat ≤ 90) || (97 ≤ c.toNat && c.toNat ≤ 122) ||
    (48 ≤ c.toNat && c.toNat ≤ 57) || c.toNat == 95

/-- Python str.strip with per-character class `sp`: drop `sp` characters from
both ends. -/
def pystrip (sp : Char → Bool) (l : List Char) : List Char :=
  ((l.dropWhile sp).reverse.dropWhile sp).reverse

/-- Python str.replace for single characters. -/
def pyreplaceChar (a b : Char) (l : List Char) : List Char :=
  l.map fun c => if c = a then b else c

/-- Worker for `collapseWs`; the flag records whether the previous character
was whitespace (so the run has already emitted its underscore). -/
def collapseWsGo (sp : Char → Bool) : List Char → Bool → List Char
  | [], _ => []
  | c :: cs, inRun =>
    if sp c then
      if inRun then collapseWsGo sp cs true else '_' :: collapseWsGo sp cs true
    else c :: collapseWsGo sp cs false

/-- Python re.sub of one or more whitespace characters by a single
underscore: each maximal whitespace run becomes one underscore. -/
def collapseWs (sp : Char → Bool) (l : List Char) : List Char := collapseWsGo sp l false

/-- The character class kept by the final re.sub of safe_filename_unicode:
word characters (parametric `wordp`), hyphen, dot and underscore. -/
def keepChar (wordp : Char → Bool) (c : Char) : Bool :=
  wordp c || c == '-' || c == '.' || c == '_'

/-- The cleaning pipeline of safe_filename_unicode applied to a nonempty
name, in source order: unquote, strip, replace forward slash, replace
backslash, collapse whitespace runs, drop characters outside the kept
class, truncate to `maxLen`. -/
def sfuClean (wordp sp : Char → Bool) (unq : List Char → List Char)
    (name : List Char) (maxLen : Nat) : List Char :=
  ((collapseWs sp (pyreplaceChar '\\' '_' (pyreplaceChar '/' '_'
      (pystrip sp (unq name))))).filter (keepChar wordp)).take maxLen

/-- safe_filename_unicode from fetch_icons.py.  An empty input returns the
literal unnamed before any cleaning; a nonempty input whose cleaning removes
everything returns the literal file. -/
def safe_filename_unicode (wordp sp : Char → Bool) (unq : List Char → List Char)
    (name : List Char) (maxLen : Nat) : List Char :=
  if name = [] then "unnamed".toList
  else if sfuClean wordp sp unq name maxLen = [] then "file".toList
  else sfuClean wordp sp unq name maxLen

/-- The regex class of ascii_fallback_name: ASCII letters, digits, hyphen,
dot, underscore. -/
def asciiKeep (c : Char) : Bool :=
  (65 ≤ c.toNat && c.toNat ≤ 90) || (97 ≤ c.toNat && c.toNat ≤ 122) ||
    (48 ≤ c.toNat && c.toNat ≤ 57) || c == '-' || c == '.' || c == '_'

/-- ascii_fallback_name from fetch_icons.py: encode to ASCII ignoring
errors (drop code points at or above 128), keep only `asciiKeep` characters,
strip, substitute the literal file when empty, then truncate. -/
def ascii_fallback_name (name : List Char) (maxLen : Nat) : List Char :=
  (if pystrip pySpaceChar ((name.filter fun c => c.toNat < 128).filter asciiKeep) = []
   then "file".toList
   else pystrip pySpaceChar ((name.filter fun c => c.toNat < 128).filter asciiKeep)).take maxLen

/-- The static content-type table CONTENT_TYPE_EXT of fetch_icons.py. -/
def CONTENT_TYPE_EXT : List (List Char × List Char) :=
  [("image/png".toList, ".png".toList),
   ("image/x-icon".toList, ".ico".toList),
   ("image/vnd.microsoft.icon".toList, ".ico".toList),
   ("image/vnd.microsoft.icon; charset=binary".toList, ".ico".toList),
   ("image/jpeg".toList, ".jpg".toList),
   ("image/jpg".toList, ".jpg".toList),
   ("image/svg+xml".toList, ".svg".toList),
   ("image/webp".toList, ".webp".toList),
   ("image/gif".toList, ".gif".toList),
   ("image/vnd.microsoft.icon; charset=utf-8".toList, ".ico".toList)]

/-- Membership lookup in the content-type table (the Python dict has
pairwise distinct keys, so first-match lookup models it). -/
def ctLookup (k : List Char) : Option (List Char) :=
  (CONTENT_TYPE_EXT.find? fun p => p.1 == k).map fun p => p.2

/-- The final path component: everything after the last forward slash. -/
def afterLastSlash (p : List Char) : List Char :=
  (p.reverse.takeWhile fun c => c != '/').reverse

/-- The final path component with its leading dots removed, as in the
posixpath splitext scan that skips leading dots of the basename. -/
def splitextStem (p : List Char) : List Char :=
  (afterLastSlash p).dropWhile fun c => c == '.'

/-- The extension part of posixpath splitext: from the last dot of the
basename, provided some earlier character of the basename is not a dot;
empty otherwise. -/
def splitextExt (p : List Char) : List Char :=
  if (splitextStem p).reverse.takeWhile (fun c => c != '.') = (splitextStem p).reverse then []
  else '.' :: ((splitextStem p).reverse.takeWhile fun c => c != '.').reverse

/-- ext_from_url from fetch_icons.py: the lowercased splitext extension of
the path component of the URL.  The path component (and the try branch
around urlparse) enters as an Option parameter: none models the except
branch returning the empty string. -/
def ext_from_url (lowerS : List Char → List Char) (upath : Option (List Char)) : List Char :=
  match upath with
  | none => []
  | some p => lowerS (splitextExt p)

/-- choose_extension from fetch_icons.py.  `ctHeader` is the raw
Content-Type header value, `upath` the path component of the source URL as
in `ext_from_url`, `guess` the first component of the mimetypes guess on
the URL. -/
def choose_extension (sp : Char → Bool) (lowerS : List Char → List Char)
    (ctHeader : List Char) (upath : Option (List Char)) (guess : Option (List Char)) :
    List Char :=
  match ctLookup (lowerS (pystrip sp (ctHeader.takeWhile fun c => c != ';'))) with
  | some e => e
  | none =>
    if ext_from_url lowerS upath ≠ [] ∧ (ext_from_url lowerS upath).length ≤ 5 then
      ext_from_url lowerS upath
    else
      match guess with
      | some g =>
        match ctLookup g with
        | some e => e
        | none => ".png".toList
      | none => ".png".toList

/-- Decimal digit characters, as produced by Python string formatting of a
nonnegative integer.  Only called with arguments below ten. -/
def decDigit : Nat → Char
  | 0 => '0'
  | 1 => '1'
  | 2 => '2'
  | 3 => '3'
  | 4 => '4'
  | 5 => '5'
  | 6 => '6'
  | 7 => '7'
  | 8 => '8'
  | _ => '9'

/-- Decimal representation of a natural number, most significant digit
first, as Python string formatting produces it. -/
def natToDec (n : Nat) : List Char :=
  if _h : n < 10 then [decDigit n]
  else natToDec (n / 10) ++ [decDigit (n % 10)]
decreasing_by exact Nat.div_lt_self (by omega) (by omega)

/-- Value of a digit list, used to invert `natToDec`. -/
def decVal (l : List Char) : Nat := l.foldl (fun a c => 10 * a + (c.toNat - 48)) 0

/-- The candidate filename sequence of the collision loop in download_icon:
base and extension first, then base, underscore, decimal index, extension. -/
def candidateName (base ext : List Char) : Nat → List Char
  | 0 => base ++ ext
  | n + 1 => base ++ '_' :: (natToDec (n + 1) ++ ext)

/-- The collision loop of download_icon, fuelled: try candidates in order
starting at index `n`, returning the first whose name is not an existing
entry of `fs`.  The fuel of `find_free` always suffices (see the pigeonhole
lemma), so the zero-fuel branch is never the one that decides the result. -/
def find_free_from (fs : List (List Char)) (base ext : List Char) : Nat → Nat → List Char
  | 0, n => candidateName base ext n
  | fuel + 1, n =>
    if candidateName base ext n ∈ fs then find_free_from fs base ext fuel (n + 1)
    else candidateName base ext n

/-- The name selected by the existence-check loop of download_icon over the
finite set `fs` of names already present in the output directory. -/
def find_free (fs : List (List Char)) (base ext : List Char) : List Char :=
  find_free_from fs base ext (fs.length + 1) 0

/-- Outcome of one OS write attempt: success, an OSError (caught by the
first except clause of download_icon), or another exception. -/
inductive WriteErr where
  | os (msg : List Char)
  | other (msg : List Char)
deriving DecidableEq

/-- The message carried by a write failure. -/
def errMsg : WriteErr → List Char
  | .os m => m
  | .other m => m

/-- The save phase of download_icon after a 200 response: pick a free name,
attempt the write; on OSError recompute the base with ascii_fallback_name,
repeat the collision search and retry exactly once; a second failure is
reported as a write_error result, any non-OS first failure as a generic
error result.  `tw` is the write oracle (none = success), `resolve` models
Path resolve. -/
def save_icon (fs : List (List Char)) (tw : List Char → Option WriteErr)
    (resolve : List Char → List Char) (base ext : List Char) : Bool × List Char :=
  match tw (find_free fs base ext) with
  | none => (true, resolve (find_free fs base ext))
  | some (.os _) =>
    match tw (find_free fs (ascii_fallback_name base 80) ext) with
    | none => (true, resolve (find_free fs (ascii_fallback_name base 80) ext))
    | some e2 => (false, "write_error:".toList ++ errMsg e2)
  | some (.other e) => (false, "error:".toList ++ e)

/-- One bookmark record: the three fields the program reads, plus an opaque
payload standing for any further JSON fields, which the program never
touches. -/
structure Bookmark (α : Type) where
  title : List Char
  url : List Char
  icon : List Char
  rest : α
deriving DecidableEq

/-- How one dispatched fetch task ends: the download function returns a
pair, or an unexpected exception escapes and is caught around fut.result. -/
inductive TaskRun where
  | completed (ok : Bool) (info : List Char)
  | raised (msg : List Char)
deriving DecidableEq

/-- The results entry recorded for index `i` in the as_completed loop:
a returned pair is recorded as is, an exception is recorded as a failure
whose message starts with the exception prefix (the TransportError form of
the spec taxonomy). -/
def record_result (i : Nat) (r : TaskRun) : Nat × Bool × List Char :=
  match r with
  | .completed ok info => (i, ok, info)
  | .raised e => (i, false, ("exception:".toList ++ e))

/-- The entries appended to results during the dispatch scan of
process_all: each record whose stripped icon field is empty is recorded at
once as a no_icon_url failure.  `s` is the index of the first record in the
list. -/
def skipResults (sp : Char → Bool) : List (Bookmark α) → Nat → List (Nat × Bool × List Char)
  | [], _ => []
  | b :: bs, i =>
    if pystrip sp b.icon = [] then (i, false, "no_icon_url".toList) :: skipResults sp bs (i + 1)
    else skipResults sp bs (i + 1)

/-- The indices dispatched to the worker pool during the scan of
process_all: records whose stripped icon field is nonempty. -/
def taskIdx (sp : Char → Bool) : List (Bookmark α) → Nat → List Nat
  | [], _ => []
  | b :: bs, i =>
    if pystrip sp b.icon = [] then taskIdx sp bs (i + 1)
    else i :: taskIdx sp bs (i + 1)

/-- The full results list a run hands to the merge phase: the skip entries
of the scan, followed by one recorded entry per dispatched task in
completion order.  `run` gives the outcome of the task for each index and
`order` is the completion order, a permutation of the dispatched indices. -/
def allResults (sp : Char → Bool) (run : Nat → TaskRun) (order : List Nat)
    (data : List (Bookmark α)) : List (Nat × Bool × List Char) :=
  skipResults sp data 0 ++ order.map fun i => record_result i (run i)

/-- The icon value written on success: the resolved path, or in
relative-path mode its form relative to the record file directory when
Path relative_to does not raise, the resolved path otherwise.  `rt` models
Path relative_to against the fixed parent directory. -/
def newIconVal (relMode : Bool) (rt : List Char → Option (List Char))
    (info : List Char) : List Char :=
  if relMode then
    match rt info with
    | some r => r
    | none => info
  else info

/-- In-place update of one list position, leaving the list unchanged when
the index is out of range. -/
def updateAt : Nat → (β → β) → List β → List β
  | _, _, [] => []
  | 0, f, b :: bs => f b :: bs
  | i + 1, f, b :: bs => b :: updateAt i f bs

/-- One step of the merge loop of process_all: a success overwrites the
icon field of the record at the carried index, a failure leaves the
collection untouched. -/
def applyResult (relMode : Bool) (rt : List Char → Option (List Char))
    (d : List (Bookmark α)) (r : Nat × Bool × List Char) : List (Bookmark α) :=
  if r.2.1 then updateAt r.1 (fun b => { b with icon := newIconVal relMode rt r.2.2 }) d
  else d

/-- The merge phase of process_all: fold the results over the collection. -/
def mergeResults (relMode : Bool) (rt : List Char → Option (List Char))
    (d : List (Bookmark α)) (results : List (Nat × Bool × List Char)) : List (Bookmark α) :=
  results.foldl (applyResult relMode rt) d

/-- The whole in-memory run of process_all on a loaded collection: scan,
fetch with completion order `order`, merge.  Backup and serialization are
external collaborators acting before and after this function. -/
def process_data (sp : Char → Bool) (relMode : Bool) (rt : List Char → Option (List Char))
    (run : Nat → TaskRun) (order : List Nat) (data : List (Bookmark α)) : List (Bookmark α) :=
  mergeResults relMode rt data (allResults sp run order data)

/-- First successful-entry lookup for index `j` in a results list. -/
def findOk (j : Nat) : List (Nat × Bool × List Char) → Option (List Char)
  | [] => none
  | r :: rs => if r.1 = j ∧ r.2.1 = true then some r.2.2 else findOk j rs

/-- Concrete three-record collection used to evaluate the coordinator model
on closed inputs: records zero and two carry icon URLs, record one has a
whitespace-only icon field and is never dispatched. -/
def demoData : List (Bookmark Unit) :=
  [{ title := "a".toList, url := "u".toList, icon := "http://x".toList, rest := () },
   { title := "b".toList, url := "v".toList, icon := "  ".toList, rest := () },
   { title := "c".toList, url := "w".toList, icon := "http://y".toList, rest := () }]

/-- Concrete task-outcome oracle for the demo collection: index zero
succeeds with a fixed resolved path, every other index raises. -/
def demoRun : Nat → TaskRun := fun i =>
  if i == 0 then TaskRun.completed true "/icons/a.png".toList
  else TaskRun.raised "boom".toList

/-! ### Character-class facts used to discharge the parametric hypotheses -/

theorem asciiWordChar_not_space (c : Char) (h : pySpaceChar c = true) :
    asciiWordChar c = false := by
  simp [pySpaceChar] at h
  simp [asciiWordChar]
  omega

theorem asciiWordChar_safe (c : Char) (h : asciiWordChar c = true) :
    isCtl c = false ∧ ¬(c = '/' ∨ c = '\\') := by
  constructor
  · simp [asciiWordChar] at h
    simp [isCtl]
    omega
  · intro hc
    rcases hc with rfl | rfl <;> revert h <;> decide

theorem asciiWordChar_lower (c : Char) (h1 : 97 ≤ c.toNat) (h2 : c.toNat ≤ 122) :
    asciiWordChar c = true := by
  simp [asciiWordChar]
  omega

theorem asciiKeep_safe (c : Char) (h : asciiKeep c = true) :
    isCtl c = false ∧ ¬(c = '/' ∨ c = '\\') := by
  constructor
  · simp [asciiKeep] at h
    rcases h with ((((h | h) | h) | rfl) | rfl) | rfl
    · simp [isCtl]; omega
    · simp [isCtl]; omega
    · simp [isCtl]; omega
    · decide
    · decide
    · decide
  · intro hc
    rcases hc with rfl | rfl <;> revert h <;> decide

/-! ### Pipeline lemmas for the sanitizers -/

theorem dropWhile_eq_self_of (sp : Char → Bool) (l : List Char)
    (h : ∀ c ∈ l, sp c = false) : l.dropWhile sp = l := by
  cases l with
  | nil => rfl
  | cons c cs => simp [List.dropWhile_cons, h c (List.mem_cons_self c cs)]

theorem mem_pystrip {sp : Char → Bool} {l : List Char} {c : Char}
    (h : c ∈ pystrip sp l) : c ∈ l := by
  rw [pystrip, List.mem_reverse] at h
  have h2 : c ∈ (l.dropWhile sp).reverse := (List.dropWhile_sublist sp).subset h
  rw [List.mem_reverse] at h2
  exact (List.dropWhile_sublist sp).subset h2

theorem pystrip_eq_self (sp : Char → Bool) (l : List Char)
    (h : ∀ c ∈ l, sp c = false) : pystrip sp l = l := by
  rw [pystrip, dropWhile_eq_self_of sp l h,
    dropWhile_eq_self_of sp l.reverse (fun c hc => h c (List.mem_reverse.mp hc)),
    List.reverse_reverse]

theorem pystrip_eq_nil (sp : Char → Bool) (l : List Char)
    (h : ∀ c ∈ l, sp c = true) : pystrip sp l = [] := by
  have h1 : l.dropWhile sp = [] := List.dropWhile_eq_nil_iff.mpr h
  rw [pystrip, h1]
  rfl

theorem mem_collapseWsGo {sp : Char → Bool} :
    ∀ (l : List Char) (flag : Bool) (c : Char),
      c ∈ collapseWsGo sp l flag → c = '_' ∨ c ∈ l := by
  intro l
  induction l with
  | nil => intro flag c h; simp [collapseWsGo] at h
  | cons d cs ih =>
    intro flag c h
    rw [collapseWsGo] at h
    by_cases hd : sp d
    · rw [if_pos hd] at h
      by_cases hflag : flag
      · rw [if_pos hflag] at h
        rcases ih true c h with h1 | h1
        · exact Or.inl h1
        · exact Or.inr (List.mem_cons_of_mem d h1)
      · rw [if_neg hflag] at h
        rcases List.mem_cons.mp h with h1 | h1
        · exact Or.inl h1
        · rcases ih true c h1 with h2 | h2
          · exact Or.inl h2
          · exact Or.inr (List.mem_cons_of_mem d h2)
    · rw [if_neg hd] at h
      rcases List.mem_cons.mp h with h1 | h1
      · exact Or.inr (h1 ▸ List.mem_cons_self d cs)
      · rcases ih false c h1 with h2 | h2
        · exact Or.inl h2
        · exact Or.inr (List.mem_cons_of_mem d h2)

theorem collapseWsGo_eq_self {sp : Char → Bool} :
    ∀ (l : List Char) (flag : Bool), (∀ c ∈ l, sp c = false) →
      collapseWsGo sp l flag = l := by
  intro l
  induction l with
  | nil => intro flag _; rfl
  | cons d cs ih =>
    intro flag h
    rw [collapseWsGo, if_neg (by simp [h d (List.mem_cons_self d cs)]),
      ih false (fun c hc => h c (List.mem_cons_of_mem d hc))]

theorem pyreplaceChar_eq_self (a b : Char) (l : List Char)
    (h : ∀ c ∈ l, c ≠ a) : pyreplaceChar a b l = l := by
  rw [pyreplaceChar]
  conv_rhs => rw [← List.map_id l]
  exact List.map_congr_left fun c hc => by simp [h c hc]

theorem mem_pyreplaceChar {a b : Char} {l : List Char} {c : Char}
    (h : c ∈ pyreplaceChar a b l) : c = b ∨ c ∈ l := by
  rcases List.mem_map.mp h with ⟨x, hx, hxc⟩
  by_cases hxa : x = a
  · simp [hxa] at hxc
    exact Or.inl hxc.symm
  · simp [hxa] at hxc
    exact Or.inr (hxc ▸ hx)

theorem mem_sfuClean {wordp sp : Char → Bool} {unq : List Char → List Char}
    {name : List Char} {maxLen : Nat} {c : Char}
    (h : c ∈ sfuClean wordp sp unq name maxLen) : keepChar wordp c = true := by
  rw [sfuClean] at h
  exact List.of_mem_filter ((List.take_sublist _ _).subset h)

theorem length_sfuClean_le (wordp sp : Char → Bool) (unq : List Char → List Char)
    (name : List Char) (maxLen : Nat) :
    (sfuClean wordp sp unq name maxLen).length ≤ maxLen := by
  rw [sfuClean]
  exact List.length_take_le _ _

/-! ### Decimal representation -/

theorem decDigit_toNat (d : Nat) (h : d < 10) : (decDigit d).toNat = 48 + d := by
  interval_cases d <;> decide

theorem decVal_append_digit (l : List Char) (c : Char) :
    decVal (l ++ [c]) = 10 * decVal l + (c.toNat - 48) := by
  simp [decVal, List.foldl_append]

theorem decVal_natToDec (n : Nat) : decVal (natToDec n) = n := by
  induction n using Nat.strong_induction_on with
  | _ n ih =>
    rw [natToDec]
    split
    · rename_i h
      simp [decVal, decDigit_toNat n h]
    · rename_i h
      rw [decVal_append_digit, ih (n / 10) (Nat.div_lt_self (by omega) (by omega)),
        decDigit_toNat (n % 10) (Nat.mod_lt _ (by omega))]
      omega

theorem natToDec_ne_nil (n : Nat) : natToDec n ≠ [] := by
  rw [natToDec]
  split <;> simp

theorem natToDec_inj : Function.Injective natToDec := by
  intro a b h
  rw [← decVal_natToDec a, ← decVal_natToDec b, h]

theorem candidateName_inj (base ext : List Char) :
    Function.Injective (candidateName base ext) := by
  intro m n h
  have hlen : ∀ k : Nat, 0 < (natToDec k).length :=
    fun k => List.length_pos.mpr (natToDec_ne_nil k)
  match m, n with
  | 0, 0 => rfl
  | 0, k + 1 =>
    exfalso
    have := congrArg List.length h
    simp [candidateName] at this
    have := hlen (k + 1)
    omega
  | j + 1, 0 =>
    exfalso
    have := congrArg List.length h
    simp [candidateName] at this
    have := hlen (j + 1)
    omega
  | j + 1, k + 1 =>
    rw [candidateName, candidateName] at h
    have h2 := List.append_cancel_left h
    have h3 : natToDec (j + 1) ++ ext = natToDec (k + 1) ++ ext := by
      injection h2
    have h4 : (natToDec (j + 1)).length = (natToDec (k + 1)).length := by
      have := congrArg List.length h3
      simp at this
      omega
    have h5 := List.append_inj_left h3 h4
    have := natToDec_inj h5
    omega


/-! ### The collision-search loop -/

theorem exists_free_candidate (fs : List (List Char)) (base ext : List Char) :
    ∃ k, k ≤ fs.length ∧ candidateName base ext k ∉ fs := by
  by_contra hc
  push_neg at hc
  have hsub : ((List.range (fs.length + 1)).map (candidateName base ext)) ⊆ fs := by
    intro x hx
    rcases List.mem_map.mp hx with ⟨k, hk, rfl⟩
    have hklt := List.mem_range.mp hk
    exact hc k (by omega)
  have hnd : ((List.range (fs.length + 1)).map (candidateName base ext)).Nodup :=
    List.Nodup.map (candidateName_inj base ext) (List.nodup_range _)
  have hle := (hnd.subperm hsub).length_le
  simp at hle

theorem find_free_from_spec (fs : List (List Char)) (base ext : List Char) :
    ∀ (fuel n : Nat), (∃ k, k < fuel ∧ candidateName base ext (n + k) ∉ fs) →
      ∃ N, n ≤ N ∧ find_free_from fs base ext fuel n = candidateName base ext N ∧
        candidateName base ext N ∉ fs ∧
        ∀ m, n ≤ m → m < N → candidateName base ext m ∈ fs := by
  intro fuel
  induction fuel with
  | zero =>
    intro n h
    obtain ⟨k, hk, _⟩ := h
    omega
  | succ fuel ih =>
    intro n h
    obtain ⟨k, hk, hfree⟩ := h
    rw [find_free_from]
    by_cases hmem : candidateName base ext n ∈ fs
    · rw [if_pos hmem]
      have hk0 : k ≠ 0 := by
        rintro rfl
        exact hfree hmem
      have hkshift : n + 1 + (k - 1) = n + k := by omega
      obtain ⟨N, hN1, hN2, hN3, hN4⟩ :=
        ih (n + 1) ⟨k - 1, by omega, by rw [hkshift]; exact hfree⟩
      refine ⟨N, by omega, hN2, hN3, fun m h1 h2 => ?_⟩
      rcases Nat.eq_or_lt_of_le h1 with h3 | h3
      · exact h3 ▸ hmem
      · exact hN4 m h3 h2
    · rw [if_neg hmem]
      exact ⟨n, Nat.le_refl n, rfl, hmem, fun m h1 h2 => absurd h2 (by omega)⟩

theorem find_free_spec (fs : List (List Char)) (base ext : List Char) :
    ∃ N, find_free fs base ext = candidateName base ext N ∧
      candidateName base ext N ∉ fs ∧
      ∀ m, m < N → candidateName base ext m ∈ fs := by
  obtain ⟨k, hk, hfree⟩ := exists_free_candidate fs base ext
  obtain ⟨N, _, h2, h3, h4⟩ :=
    find_free_from_spec fs base ext (fs.length + 1) 0 ⟨k, by omega, by simpa using hfree⟩
  exact ⟨N, h2, h3, fun m hm => h4 m (Nat.zero_le m) hm⟩

/-! ### Update and merge infrastructure -/

theorem length_updateAt : ∀ (i : Nat) (f : β → β) (l : List β),
    (updateAt i f l).length = l.length := by
  intro i f l
  induction l generalizing i with
  | nil => cases i <;> rfl
  | cons b bs ih =>
    cases i with
    | zero => simp [updateAt]
    | succ i => simp [updateAt, ih i]

theorem getElem?_updateAt : ∀ (i : Nat) (f : β → β) (l : List β) (j : Nat),
    (updateAt i f l)[j]? = if i = j then (l[j]?).map f else l[j]? := by
  intro i f l
  induction l generalizing i with
  | nil =>
    intro j
    cases i <;> simp [updateAt]
  | cons b bs ih =>
    intro j
    cases i with
    | zero =>
      cases j with
      | zero => simp [updateAt]
      | succ j => simp [updateAt]
    | succ i =>
      cases j with
      | zero => simp [updateAt]
      | succ j =>
        rw [updateAt]
        simp only [List.getElem?_cons_succ]
        rw [ih i j]
        by_cases hij : i = j
        · simp [hij]
        · simp [hij, fun h => hij (Nat.succ_injective h)]

theorem findOk_eq_none (j : Nat) :
    ∀ rs : List (Nat × Bool × List Char),
      (∀ e ∈ rs, ¬(e.1 = j ∧ e.2.1 = true)) → findOk j rs = none := by
  intro rs
  induction rs with
  | nil => intro _; rfl
  | cons r t ih =>
    intro h
    rw [findOk, if_neg (h r (List.mem_cons_self r t))]
    exact ih fun e he => h e (List.mem_cons_of_mem r he)

theorem findOk_append (j : Nat) (l1 l2 : List (Nat × Bool × List Char))
    (h : findOk j l1 = none) : findOk j (l1 ++ l2) = findOk j l2 := by
  induction l1 with
  | nil => rfl
  | cons r t ih =>
    rw [findOk] at h
    rw [List.cons_append, findOk]
    by_cases hc : r.1 = j ∧ r.2.1 = true
    · rw [if_pos hc] at h
      exact absurd h (by simp)
    · rw [if_neg hc] at h ⊢
      exact ih h

theorem record_result_fst (i : Nat) (r : TaskRun) : (record_result i r).1 = i := by
  cases r <;> rfl

theorem findOk_map_record (run : Nat → TaskRun) :
    ∀ (order : List Nat) (j : Nat), order.Nodup →
      findOk j (order.map fun i => record_result i (run i)) =
        if j ∈ order then
          (match run j with
           | .completed true info => some info
           | _ => none)
        else none := by
  intro order
  induction order with
  | nil => intro j _; simp [findOk]
  | cons i t ih =>
    intro j hnd
    have hndt := (List.nodup_cons.mp hnd).2
    have hnit := (List.nodup_cons.mp hnd).1
    rw [List.map_cons]
    by_cases hij : i = j
    · subst hij
      rw [if_pos (List.mem_cons_self i t)]
      cases hr : run i with
      | completed ok info =>
        cases ok with
        | true =>
          rw [show record_result i (TaskRun.completed true info) = (i, true, info) from rfl]
          rw [findOk, if_pos ⟨rfl, rfl⟩]
        | false =>
          rw [show record_result i (TaskRun.completed false info) = (i, false, info) from rfl]
          rw [findOk, if_neg (by simp)]
          rw [ih i hndt, if_neg hnit]
      | raised e =>
        rw [show record_result i (TaskRun.raised e) =
              (i, false, ("exception:".toList ++ e)) from rfl]
        rw [findOk, if_neg (by simp)]
        rw [ih i hndt, if_neg hnit]
    · rw [findOk, if_neg (by rw [record_result_fst]; exact fun hc => hij hc.1)]
      rw [ih j hndt]
      by_cases hjt : j ∈ t
      · rw [if_pos hjt, if_pos (List.mem_cons_of_mem i hjt)]
      · rw [if_neg hjt, if_neg (by simp [hjt]; exact fun h => hij h.symm)]

theorem mergeResults_cons (m : Bool) (rt : List Char → Option (List Char))
    (d : List (Bookmark α)) (r : Nat × Bool × List Char) (t : List (Nat × Bool × List Char)) :
    mergeResults m rt d (r :: t) = mergeResults m rt (applyResult m rt d r) t := rfl

theorem length_applyResult (m : Bool) (rt : List Char → Option (List Char))
    (d : List (Bookmark α)) (r : Nat × Bool × List Char) :
    (applyResult m rt d r).length = d.length := by
  rw [applyResult]
  split
  · exact length_updateAt _ _ _
  · rfl

theorem length_mergeResults (m : Bool) (rt : List Char → Option (List Char)) :
    ∀ (rs : List (Nat × Bool × List Char)) (d : List (Bookmark α)),
      (mergeResults m rt d rs).length = d.length := by
  intro rs
  induction rs with
  | nil => intro d; rfl
  | cons r t ih =>
    intro d
    rw [mergeResults_cons, ih, length_applyResult]

theorem getElem?_mergeResults (m : Bool) (rt : List Char → Option (List Char)) :
    ∀ (rs : List (Nat × Bool × List Char)) (d : List (Bookmark α)) (j : Nat),
      (rs.map (fun r => r.1)).Nodup →
      (mergeResults m rt d rs)[j]? =
        match findOk j rs with
        | some info => (d[j]?).map (fun b => { b with icon := newIconVal m rt info })
        | none => d[j]? := by
  intro rs
  induction rs with
  | nil => intro d j _; rfl
  | cons r t ih =>
    intro d j hnd
    have hndt : (t.map (fun r => r.1)).Nodup := (List.nodup_cons.mp (by simpa using hnd)).2
    have hr1 : r.1 ∉ t.map (fun r => r.1) := (List.nodup_cons.mp (by simpa using hnd)).1
    rw [mergeResults_cons, findOk]
    by_cases hok : r.2.1 = true
    · by_cases hj : r.1 = j
      · rw [if_pos ⟨hj, hok⟩]
        rw [ih (applyResult m rt d r) j hndt]
        have hnone : findOk j t = none := by
          apply findOk_eq_none
          intro e he hc
          exact hr1 (hj ▸ hc.1 ▸ List.mem_map_of_mem (fun r => r.1) he)
        rw [hnone]
        rw [applyResult, if_pos hok, getElem?_updateAt, if_pos hj]
      · rw [if_neg (fun hc => hj hc.1)]
        rw [ih (applyResult m rt d r) j hndt]
        have happ : (applyResult m rt d r)[j]? = d[j]? := by
          rw [applyResult, if_pos hok, getElem?_updateAt, if_neg hj]
        rcases hfind : findOk j t with _ | info
        · simp only [hfind]
          exact happ
        · simp only [hfind]
          rw [happ]
    · rw [if_neg (fun hc => hok hc.2)]
      rw [show applyResult m rt d r = d from by rw [applyResult, if_neg hok]]
      exact ih d j hndt

theorem skipResults_ok_false {sp : Char → Bool} :
    ∀ (data : List (Bookmark α)) (s : Nat), ∀ e ∈ skipResults sp data s, e.2.1 = false := by
  intro data
  induction data with
  | nil => intro s e he; simp [skipResults] at he
  | cons d bs ih =>
    intro s e he
    rw [skipResults] at he
    by_cases hd : pystrip sp d.icon = []
    · rw [if_pos hd] at he
      rcases List.mem_cons.mp he with h1 | h1
      · rw [h1]
      · exact ih (s + 1) e h1
    · rw [if_neg hd] at he
      exact ih (s + 1) e he

theorem findOk_skipResults {sp : Char → Bool} (j : Nat) (data : List (Bookmark α)) (s : Nat) :
    findOk j (skipResults sp data s) = none := by
  apply findOk_eq_none
  intro e he hc
  have := skipResults_ok_false data s e he
  rw [this] at hc
  exact absurd hc.2 (by simp)

theorem mem_skipResults {sp : Char → Bool} :
    ∀ (data : List (Bookmark α)) (s k : Nat) (b : Bookmark α),
      data[k]? = some b → pystrip sp b.icon = [] →
      (s + k, false, "no_icon_url".toList) ∈ skipResults sp data s := by
  intro data
  induction data with
  | nil => intro s k b hb; simp at hb
  | cons d bs ih =>
    intro s k b hb hs
    cases k with
    | zero =>
      rw [List.getElem?_cons_zero] at hb
      have hbd : b = d := by injection hb with h; exact h.symm
      subst hbd
      rw [skipResults, if_pos hs]
      exact List.mem_cons_self _ _
    | succ k =>
      rw [List.getElem?_cons_succ] at hb
      have hmem := ih (s + 1) k b hb hs
      have harith : s + (k + 1) = s + 1 + k := by omega
      rw [skipResults]
      by_cases hd : pystrip sp d.icon = []
      · rw [if_pos hd]
        exact List.mem_cons_of_mem _ (harith ▸ hmem)
      · rw [if_neg hd]
        exact harith ▸ hmem

theorem mem_taskIdx {sp : Char → Bool} :
    ∀ (data : List (Bookmark α)) (s j : Nat),
      j ∈ taskIdx sp data s ↔
        ∃ k, ∃ b : Bookmark α, data[k]? = some b ∧ j = s + k ∧ pystrip sp b.icon ≠ [] := by
  intro data
  induction data with
  | nil =>
    intro s j
    simp [taskIdx]
  | cons d bs ih =>
    intro s j
    rw [taskIdx]
    by_cases hd : pystrip sp d.icon = []
    · rw [if_pos hd, ih (s + 1) j]
      constructor
      · rintro ⟨k, b, hb, hj, hne⟩
        exact ⟨k + 1, b, by simpa using hb, by omega, hne⟩
      · rintro ⟨k, b, hb, hj, hne⟩
        cases k with
        | zero =>
          rw [List.getElem?_cons_zero] at hb
          have : b = d := by injection hb with h; exact h.symm
          exact absurd (this ▸ hd) hne
        | succ k =>
          rw [List.getElem?_cons_succ] at hb
          exact ⟨k, b, hb, by omega, hne⟩
    · rw [if_neg hd]
      constructor
      · intro hmem
        rcases List.mem_cons.mp hmem with h1 | h1
        · exact ⟨0, d, by simp, by omega, hd⟩
        · rcases (ih (s + 1) j).mp h1 with ⟨k, b, hb, hj, hne⟩
          exact ⟨k + 1, b, by simpa using hb, by omega, hne⟩
      · rintro ⟨k, b, hb, hj, hne⟩
        cases k with
        | zero =>
          have : j = s := by omega
          exact this ▸ List.mem_cons_self _ _
        | succ k =>
          rw [List.getElem?_cons_succ] at hb
          exact List.mem_cons_of_mem _
            ((ih (s + 1) j).mpr ⟨k, b, hb, by omega, hne⟩)

theorem skip_task_perm (sp : Char → Bool) :
    ∀ (data : List (Bookmark α)) (s : Nat),
      ((skipResults sp data s).map (fun r => r.1) ++ taskIdx sp data s).Perm
        (List.range' s data.length) := by
  intro data
  induction data with
  | nil => intro s; rfl
  | cons d bs ih =>
    intro s
    have hrange : List.range' s (d :: bs).length = s :: List.range' (s + 1) bs.length := by
      rw [List.length_cons]
      rfl
    rw [hrange, skipResults, taskIdx]
    by_cases hd : pystrip sp d.icon = []
    · rw [if_pos hd, if_pos hd]
      rw [List.map_cons]
      exact List.Perm.cons s (ih (s + 1))
    · rw [if_neg hd, if_neg hd]
      exact List.Perm.trans List.perm_middle (List.Perm.cons s (ih (s + 1)))

theorem allResults_map_fst (sp : Char → Bool) (run : Nat → TaskRun) (order : List Nat)
    (data : List (Bookmark α)) :
    (allResults sp run order data).map (fun r => r.1) =
      (skipResults sp data 0).map (fun r => r.1) ++ order := by
  rw [allResults, List.map_append, List.map_map]
  congr 1
  have h : ∀ i ∈ order, ((fun r : Nat × Bool × List Char => r.1) ∘
      fun i => record_result i (run i)) i = i :=
    fun i _ => record_result_fst i (run i)
  rw [List.map_congr_left h]
  exact List.map_id order

theorem getElem?_process_data (sp : Char → Bool) (rm : Bool)
    (rt : List Char → Option (List Char)) (run : Nat → TaskRun) (order : List Nat)
    (data : List (Bookmark α)) (j : Nat) (hord : order.Perm (taskIdx sp data 0)) :
    (process_data sp rm rt run order data)[j]? =
      if j ∈ taskIdx sp data 0 then
        (match run j with
         | .completed true info =>
             (data[j]?).map fun b => { b with icon := newIconVal rm rt info }
         | _ => data[j]?)
      else data[j]? := by
  have hperm := skip_task_perm sp data 0
  have hall : ((skipResults sp data 0).map (fun r => r.1) ++ taskIdx sp data 0).Nodup :=
    hperm.nodup_iff.mpr (List.nodup_range' 0 data.length)
  have htask : (taskIdx sp data 0).Nodup := hall.of_append_right
  have hordnd : order.Nodup := hord.nodup_iff.mpr htask
  have hres : ((allResults sp run order data).map (fun r => r.1)).Nodup := by
    rw [allResults_map_fst]
    exact ((List.Perm.append_left _ hord).nodup_iff).mpr hall
  rw [process_data, getElem?_mergeResults rm rt _ data j hres]
  rw [allResults, findOk_append _ _ _ (findOk_skipResults j data 0)]
  rw [findOk_map_record run order j hordnd]
  by_cases hj : j ∈ taskIdx sp data 0
  · have hjo : j ∈ order := hord.mem_iff.mpr hj
    rw [if_pos hjo, if_pos hj]
    cases run j with
    | completed ok info => cases ok <;> rfl
    | raised e => rfl
  · have hjo : j ∉ order := fun hmem => hj (hord.mem_iff.mp hmem)
    rw [if_neg hjo, if_neg hj]

/-! ### Claim theorems -/

/-- Claim C4: the writer selects the first candidate name, in the order
base.ext, base_1.ext, base_2.ext and so on, that is not an existing entry;
the selected path does not exist at selection time, so no existing file is
overwritten; and a second write with the same base and extension against
the grown directory picks a different candidate, distinguished by its
numeric suffix index. -/
theorem writer_collision_safe (fs : List (List Char)) (base ext : List Char) :
    (∃ N, find_free fs base ext = candidateName base ext N ∧
        find_free fs base ext ∉ fs ∧
        ∀ m, m < N → candidateName base ext m ∈ fs) ∧
    (∃ N1 N2, find_free fs base ext = candidateName base ext N1 ∧
        find_free (find_free fs base ext :: fs) base ext = candidateName base ext N2 ∧
        N1 ≠ N2 ∧
        find_free (find_free fs base ext :: fs) base ext ≠ find_free fs base ext) := by
  obtain ⟨N1, h1, h2, h3⟩ := find_free_spec fs base ext
  obtain ⟨N2, g1, g2, g3⟩ := find_free_spec (find_free fs base ext :: fs) base ext
  have hne : find_free (find_free fs base ext :: fs) base ext ≠ find_free fs base ext := by
    intro he
    apply g2
    rw [← g1, he]
    exact List.mem_cons_self _ _
  refine ⟨⟨N1, h1, h1 ▸ h2, h3⟩, N1, N2, h1, g1, ?_, hne⟩
  intro hN
  exact hne (by rw [g1, ← hN, ← h1])

/-- Claim C7: when the first write attempt fails with an OSError, the save
phase recomputes the candidate from the ASCII fallback of the base name,
repeats the collision search on that base, and retries the write exactly
once; if the fallback attempt also fails the task returns a failure pair
carrying the write_error prefix and the underlying message, instead of
raising. -/
theorem write_fallback_retry (fs : List (List Char)) (tw : List Char → Option WriteErr)
    (resolve : List Char → List Char) (base ext : List Char) (e : List Char)
    (hfail : tw (find_free fs base ext) = some (WriteErr.os e)) :
    (tw (find_free fs (ascii_fallback_name base 80) ext) = none →
      save_icon fs tw resolve base ext =
        (true, resolve (find_free fs (ascii_fallback_name base 80) ext))) ∧
    (∀ e2, tw (find_free fs (ascii_fallback_name base 80) ext) = some e2 →
      save_icon fs tw resolve base ext = (false, "write_error:".toList ++ errMsg e2)) := by
  constructor
  · intro h2
    simp only [save_icon, hfail, h2]
  · intro e2 h2
    simp only [save_icon, hfail, h2]

theorem write_fallback_retry_witness :
    save_icon []
        (fun p => if p = "b.png".toList then some (WriteErr.os "bad".toList) else none)
        (fun p => p) "b".toList ".png".toList =
      (false, "write_error:".toList ++ "bad".toList) :=
  (write_fallback_retry []
      (fun p => if p = "b.png".toList then some (WriteErr.os "bad".toList) else none)
      (fun p => p) "b".toList ".png".toList "bad".toList (by decide)).2
    (WriteErr.os "bad".toList) (by decide)

theorem ctLookup_shape (k e : List Char) (h : ctLookup k = some e) :
    e ≠ [] ∧ e.headI = '.' := by
  rw [ctLookup] at h
  cases hf : CONTENT_TYPE_EXT.find? (fun p => p.1 == k) with
  | none => rw [hf] at h; exact absurd h (by simp)
  | some p =>
    rw [hf] at h
    have hpe : p.2 = e := by
      simpa using h
    have hmem := List.mem_of_find?_eq_some hf
    subst hpe
    fin_cases hmem <;> exact ⟨by decide, by decide⟩

theorem splitextExt_shape (p : List Char) :
    splitextExt p = [] ∨ ∃ r, splitextExt p = '.' :: r := by
  rw [splitextExt]
  split
  · exact Or.inl rfl
  · exact Or.inr ⟨_, rfl⟩

theorem ext_from_url_shape (lowerS : List Char → List Char) (upath : Option (List Char))
    (hdot : ∀ s, lowerS ('.' :: s) = '.' :: lowerS s) (hnil : lowerS [] = []) :
    ext_from_url lowerS upath = [] ∨
      (ext_from_url lowerS upath ≠ [] ∧ (ext_from_url lowerS upath).headI = '.') := by
  cases upath with
  | none => exact Or.inl rfl
  | some p =>
    rw [ext_from_url]
    rcases splitextExt_shape p with hsh | ⟨r, hsh⟩
    · rw [hsh, hnil]
      exact Or.inl rfl
    · rw [hsh, hdot r]
      exact Or.inr ⟨by simp, rfl⟩

/-- Claim C5: choose_extension follows the declared precedence: the
table-mapped extension when the normalized header (parameters after the
semicolon stripped, whitespace trimmed, lowercased) is a table key;
otherwise the extension drawn from the URL path when nonempty and at most
five characters including the dot; otherwise the table-mapped extension of
the mimetypes guess when that guess is a table key; otherwise the png
default; and in every case the result is nonempty and begins with a dot. -/
theorem choose_extension_precedence (sp : Char → Bool) (lowerS : List Char → List Char)
    (ctHeader : List Char) (upath : Option (List Char)) (guess : Option (List Char))
    (hdot : ∀ s, lowerS ('.' :: s) = '.' :: lowerS s) (hnil : lowerS [] = []) :
    (∀ e, ctLookup (lowerS (pystrip sp (ctHeader.takeWhile fun c => c != ';'))) = some e →
      choose_extension sp lowerS ctHeader upath guess = e) ∧
    (ctLookup (lowerS (pystrip sp (ctHeader.takeWhile fun c => c != ';'))) = none →
      ext_from_url lowerS upath ≠ [] → (ext_from_url lowerS upath).length ≤ 5 →
      choose_extension sp lowerS ctHeader upath guess = ext_from_url lowerS upath) ∧
    (ctLookup (lowerS (pystrip sp (ctHeader.takeWhile fun c => c != ';'))) = none →
      ¬(ext_from_url lowerS upath ≠ [] ∧ (ext_from_url lowerS upath).length ≤ 5) →
      ∀ g e, guess = some g → ctLookup g = some e →
        choose_extension sp lowerS ctHeader upath guess = e) ∧
    (ctLookup (lowerS (pystrip sp (ctHeader.takeWhile fun c => c != ';'))) = none →
      ¬(ext_from_url lowerS upath ≠ [] ∧ (ext_from_url lowerS upath).length ≤ 5) →
      (guess = none ∨ ∃ g, guess = some g ∧ ctLookup g = none) →
      choose_extension sp lowerS ctHeader upath guess = ".png".toList) ∧
    (choose_extension sp lowerS ctHeader upath guess ≠ [] ∧
      (choose_extension sp lowerS ctHeader upath guess).headI = '.') := by
  refine ⟨?_, ?_, ?_, ?_, ?_⟩
  · intro e he
    simp only [choose_extension, he]
  · intro h0 h1 h2
    simp only [choose_extension, h0]
    rw [if_pos ⟨h1, h2⟩]
  · intro h0 hno g e hg he
    simp only [choose_extension, h0, hg, he]
    rw [if_neg hno]
  · intro h0 hno hg
    rcases hg with rfl | ⟨g, rfl, hgl⟩
    · simp only [choose_extension, h0]
      rw [if_neg hno]
    · simp only [choose_extension, h0, hgl]
      rw [if_neg hno]
  · rcases hct : ctLookup (lowerS (pystrip sp (ctHeader.takeWhile fun c => c != ';')))
      with _ | e
    · simp only [choose_extension, hct]
      by_cases hif : ext_from_url lowerS upath ≠ [] ∧ (ext_from_url lowerS upath).length ≤ 5
      · rw [if_pos hif]
        rcases ext_from_url_shape lowerS upath hdot hnil with hsh | hsh
        · exact absurd hsh hif.1
        · exact hsh
      · rw [if_neg hif]
        cases guess with
        | none => exact ⟨by decide, by decide⟩
        | some g =>
          cases hgl : ctLookup g with
          | none =>
            simp only [hgl]
            exact ⟨by decide, by decide⟩
          | some e =>
            simp only [hgl]
            exact ctLookup_shape g e hgl
    · simp only [choose_extension, hct]
      exact ctLookup_shape _ e hct

theorem choose_extension_precedence_witness :
    choose_extension pySpaceChar (List.map Char.toLower) "image/png".toList
        (some "/favicon.ico".toList) none ≠ [] ∧
      (choose_extension pySpaceChar (List.map Char.toLower) "image/png".toList
        (some "/favicon.ico".toList) none).headI = '.' :=
  (choose_extension_precedence pySpaceChar (List.map Char.toLower) "image/png".toList
      (some "/favicon.ico".toList) none
      (fun s => by rw [List.map_cons, show Char.toLower '.' = '.' from by decide])
      rfl).2.2.2.2

theorem keepChar_safe (wordp : Char → Bool)
    (hw : ∀ c, wordp c = true → isCtl c = false ∧ ¬(c = '/' ∨ c = '\\'))
    (c : Char) (h : keepChar wordp c = true) :
    isCtl c = false ∧ c ≠ '/' ∧ c ≠ '\\' := by
  simp only [keepChar, Bool.or_eq_true, beq_iff_eq] at h
  rcases h with ((hc | rfl) | rfl) | rfl
  · obtain ⟨h1, h2⟩ := hw c hc
    exact ⟨h1, fun he => h2 (Or.inl he), fun he => h2 (Or.inr he)⟩
  · exact ⟨by decide, by decide, by decide⟩
  · exact ⟨by decide, by decide, by decide⟩
  · exact ⟨by decide, by decide, by decide⟩

theorem take_ne_nil_of_ne_nil {l : List Char} (h : l ≠ []) (n : Nat) (hn : n ≠ 0) :
    l.take n ≠ [] := by
  cases l with
  | nil => exact absurd rfl h
  | cons c cs =>
    cases n with
    | zero => exact absurd rfl hn
    | succ n => simp [List.take]

/-- Claim C3: safe_filename_unicode at cap 120 and ascii_fallback_name at
cap 80 always return (totality holds by construction in this model) a
nonempty string without path separators or control characters, of length
at most the cap; the empty input maps to the literal unnamed for
safe_filename_unicode, and an input whose cleaning removes every character
maps to the literal file, for both forms. -/
theorem sanitize_total_safe (wordp sp : Char → Bool) (unq : List Char → List Char)
    (hw : ∀ c, wordp c = true → isCtl c = false ∧ ¬(c = '/' ∨ c = '\\'))
    (name : List Char) :
    (safe_filename_unicode wordp sp unq name 120 ≠ [] ∧
      (∀ c ∈ safe_filename_unicode wordp sp unq name 120,
        isCtl c = false ∧ c ≠ '/' ∧ c ≠ '\\') ∧
      (safe_filename_unicode wordp sp unq name 120).length ≤ 120) ∧
    (ascii_fallback_name name 80 ≠ [] ∧
      (∀ c ∈ ascii_fallback_name name 80, isCtl c = false ∧ c ≠ '/' ∧ c ≠ '\\') ∧
      (ascii_fallback_name name 80).length ≤ 80) ∧
    (name = [] → safe_filename_unicode wordp sp unq name 120 = "unnamed".toList) ∧
    (name ≠ [] → sfuClean wordp sp unq name 120 = [] →
      safe_filename_unicode wordp sp unq name 120 = "file".toList) ∧
    (pystrip pySpaceChar ((name.filter fun c => c.toNat < 128).filter asciiKeep) = [] →
      ascii_fallback_name name 80 = "file".toList) := by
  have hsfu : safe_filename_unicode wordp sp unq name 120 ≠ [] ∧
      (∀ c ∈ safe_filename_unicode wordp sp unq name 120,
        isCtl c = false ∧ c ≠ '/' ∧ c ≠ '\\') ∧
      (safe_filename_unicode wordp sp unq name 120).length ≤ 120 := by
    rw [safe_filename_unicode]
    by_cases h0 : name = []
    · rw [if_pos h0]
      exact ⟨by decide, by decide, by decide⟩
    · rw [if_neg h0]
      by_cases h1 : sfuClean wordp sp unq name 120 = []
      · rw [if_pos h1]
        exact ⟨by decide, by decide, by decide⟩
      · rw [if_neg h1]
        exact ⟨h1, fun c hc => keepChar_safe wordp hw c (mem_sfuClean hc),
          length_sfuClean_le wordp sp unq name 120⟩
  have hasc : ascii_fallback_name name 80 ≠ [] ∧
      (∀ c ∈ ascii_fallback_name name 80, isCtl c = false ∧ c ≠ '/' ∧ c ≠ '\\') ∧
      (ascii_fallback_name name 80).length ≤ 80 := by
    rw [ascii_fallback_name]
    by_cases h0 :
        pystrip pySpaceChar ((name.filter fun c => c.toNat < 128).filter asciiKeep) = []
    · rw [if_pos h0]
      exact ⟨by decide, by decide, by decide⟩
    · rw [if_neg h0]
      refine ⟨take_ne_nil_of_ne_nil h0 80 (by decide), ?_, List.length_take_le _ _⟩
      intro c hc
      have hc2 := (List.take_sublist _ _).subset hc
      have hc3 := mem_pystrip hc2
      obtain ⟨g1, g2⟩ := asciiKeep_safe c (List.of_mem_filter hc3)
      exact ⟨g1, fun he => g2 (Or.inl he), fun he => g2 (Or.inr he)⟩
  refine ⟨hsfu, hasc, ?_, ?_, ?_⟩
  · intro h0
    rw [safe_filename_unicode, if_pos h0]
  · intro h0 h1
    rw [safe_filename_unicode, if_neg h0, if_pos h1]
  · intro h0
    rw [ascii_fallback_name, if_pos h0]
    decide

theorem sanitize_total_safe_witness :
    safe_filename_unicode asciiWordChar pySpaceChar (fun s => s) "a b/c".toList 120 ≠ [] ∧
      (∀ c ∈ safe_filename_unicode asciiWordChar pySpaceChar (fun s => s) "a b/c".toList 120,
        isCtl c = false ∧ c ≠ '/' ∧ c ≠ '\\') ∧
      (safe_filename_unicode asciiWordChar pySpaceChar
        (fun s => s) "a b/c".toList 120).length ≤ 120 :=
  (sanitize_total_safe asciiWordChar pySpaceChar (fun s => s)
      (fun c h => asciiWordChar_safe c h) "a b/c".toList).1

theorem sfu_fixed (wordp sp : Char → Bool) (unq : List Char → List Char)
    (hunq : ∀ s : List Char, (∀ c ∈ s, c ≠ '%') → unq s = s)
    (hsw : ∀ c, sp c = true → wordp c = false)
    (hpc : wordp '%' = false) (hsl : wordp '/' = false) (hbs : wordp '\\' = false)
    (hud : wordp '_' = true) (hdot : sp '.' = false) (hdash : sp '-' = false)
    (l : List Char) (hkeep : ∀ c ∈ l, keepChar wordp c = true)
    (hlen : l.length ≤ 120) (hne : l ≠ []) :
    safe_filename_unicode wordp sp unq l 120 = l := by
  have hchar : ∀ c ∈ l, c ≠ '%' ∧ c ≠ '/' ∧ c ≠ '\\' ∧ sp c = false := by
    intro c hc
    have hk := hkeep c hc
    simp only [keepChar, Bool.or_eq_true, beq_iff_eq] at hk
    rcases hk with ((hw | rfl) | rfl) | rfl
    · refine ⟨?_, ?_, ?_, ?_⟩
      · rintro rfl
        rw [hpc] at hw
        exact absurd hw (by simp)
      · rintro rfl
        rw [hsl] at hw
        exact absurd hw (by simp)
      · rintro rfl
        rw [hbs] at hw
        exact absurd hw (by simp)
      · cases hsp : sp c
        · rfl
        · rw [hsw c hsp] at hw
          exact absurd hw (by simp)
    · exact ⟨by decide, by decide, by decide, hdash⟩
    · exact ⟨by decide, by decide, by decide, hdot⟩
    · refine ⟨by decide, by decide, by decide, ?_⟩
      cases hsp : sp '_'
      · rfl
      · rw [hsw _ hsp] at hud
        exact absurd hud (by simp)
  have hclean : sfuClean wordp sp unq l 120 = l := by
    rw [sfuClean, collapseWs]
    rw [hunq l (fun c hc => (hchar c hc).1)]
    rw [pystrip_eq_self sp l (fun c hc => (hchar c hc).2.2.2)]
    rw [pyreplaceChar_eq_self '/' '_' l (fun c hc => (hchar c hc).2.1)]
    rw [pyreplaceChar_eq_self '\\' '_' l (fun c hc => (hchar c hc).2.2.1)]
    rw [collapseWsGo_eq_self l false (fun c hc => (hchar c hc).2.2.2)]
    rw [List.filter_eq_self.mpr hkeep]
    exact List.take_of_length_le hlen
  rw [safe_filename_unicode, if_neg hne, hclean, if_neg hne]

/-- Claim C9: safe_filename_unicode at cap 120 is idempotent, namely
sanitizing an already-sanitized name returns it unchanged, and is
deterministic, namely equal inputs give equal outputs.  The hypotheses are
the facts about the Python word class, whitespace class and unquote that
the sanitizer relies on: whitespace and the percent, slash and backslash
characters are not word characters, ASCII lowercase letters and the
underscore are, dot and hyphen are not whitespace, and unquote is the
identity on strings without a percent character. -/
theorem sanitize_idempotent_deterministic (wordp sp : Char → Bool)
    (unq : List Char → List Char)
    (hunq : ∀ s : List Char, (∀ c ∈ s, c ≠ '%') → unq s = s)
    (hsw : ∀ c, sp c = true → wordp c = false)
    (hpc : wordp '%' = false) (hsl : wordp '/' = false) (hbs : wordp '\\' = false)
    (hlow : ∀ c : Char, 97 ≤ c.toNat → c.toNat ≤ 122 → wordp c = true)
    (hud : wordp '_' = true) (hdot : sp '.' = false) (hdash : sp '-' = false) :
    (∀ name : List Char,
      safe_filename_unicode wordp sp unq (safe_filename_unicode wordp sp unq name 120) 120 =
        safe_filename_unicode wordp sp unq name 120) ∧
    (∀ x y : List Char, x = y →
      safe_filename_unicode wordp sp unq x 120 = safe_filename_unicode wordp sp unq y 120) := by
  have hlit : ∀ w : List Char, (∀ c ∈ w, 97 ≤ c.toNat ∧ c.toNat ≤ 122) →
      ∀ c ∈ w, keepChar wordp c = true := by
    intro w hw c hc
    have hb := hw c hc
    simp [keepChar, hlow c hb.1 hb.2]
  constructor
  · intro name
    by_cases h0 : name = []
    · have hy : safe_filename_unicode wordp sp unq name 120 = "unnamed".toList := by
        rw [safe_filename_unicode, if_pos h0]
      rw [hy]
      exact sfu_fixed wordp sp unq hunq hsw hpc hsl hbs hud hdot hdash "unnamed".toList
        (hlit "unnamed".toList (by decide)) (by decide) (by decide)
    · by_cases h1 : sfuClean wordp sp unq name 120 = []
      · have hy : safe_filename_unicode wordp sp unq name 120 = "file".toList := by
          rw [safe_filename_unicode, if_neg h0, if_pos h1]
        rw [hy]
        exact sfu_fixed wordp sp unq hunq hsw hpc hsl hbs hud hdot hdash "file".toList
          (hlit "file".toList (by decide)) (by decide) (by decide)
      · have hy : safe_filename_unicode wordp sp unq name 120 =
            sfuClean wordp sp unq name 120 := by
          rw [safe_filename_unicode, if_neg h0, if_neg h1]
        rw [hy]
        exact sfu_fixed wordp sp unq hunq hsw hpc hsl hbs hud hdot hdash
          (sfuClean wordp sp unq name 120) (fun c hc => mem_sfuClean hc)
          (length_sfuClean_le wordp sp unq name 120) h1
  · intro x y h
    rw [h]

theorem sanitize_idempotent_deterministic_witness :
    safe_filename_unicode asciiWordChar pySpaceChar (fun s => s)
        (safe_filename_unicode asciiWordChar pySpaceChar (fun s => s) "ab cd".toList 120) 120 =
      safe_filename_unicode asciiWordChar pySpaceChar (fun s => s) "ab cd".toList 120 :=
  (sanitize_idempotent_deterministic asciiWordChar pySpaceChar (fun s => s)
      (fun _ _ => rfl) asciiWordChar_not_space (by decide) (by decide) (by decide)
      asciiWordChar_lower (by decide) (by decide) (by decide)).1 "ab cd".toList

/-- Claim C10: a nonempty input consisting only of whitespace characters is
mapped by safe_filename_unicode to the literal file, not to the literal
unnamed; the unnamed branch is taken only on the exactly-empty input,
before any trimming or cleaning: on every nonempty input the result is
decided by the cleaned form alone. -/
theorem whitespace_only_gives_file (wordp sp : Char → Bool) (unq : List Char → List Char)
    (hunq : ∀ s : List Char, (∀ c ∈ s, c ≠ '%') → unq s = s)
    (hpct : sp '%' = false) :
    (safe_filename_unicode wordp sp unq [] 120 = "unnamed".toList) ∧
    (∀ name : List Char, name ≠ [] →
      safe_filename_unicode wordp sp unq name 120 =
        if sfuClean wordp sp unq name 120 = [] then "file".toList
        else sfuClean wordp sp unq name 120) ∧
    (∀ name : List Char, name ≠ [] → (∀ c ∈ name, sp c = true) →
      safe_filename_unicode wordp sp unq name 120 = "file".toList ∧
      safe_filename_unicode wordp sp unq name 120 ≠ "unnamed".toList) := by
  refine ⟨by rw [safe_filename_unicode, if_pos rfl], ?_, ?_⟩
  · intro name h
    rw [safe_filename_unicode, if_neg h]
  · intro name h hall
    have hnop : ∀ c ∈ name, c ≠ '%' := by
      intro c hc heq
      have hs := hall c hc
      rw [heq, hpct] at hs
      exact absurd hs (by simp)
    have hclean : sfuClean wordp sp unq name 120 = [] := by
      rw [sfuClean, hunq name hnop, pystrip_eq_nil sp name hall]
      rfl
    constructor
    · rw [safe_filename_unicode, if_neg h, if_pos hclean]
    · rw [safe_filename_unicode, if_neg h, if_pos hclean]
      decide

theorem whitespace_only_gives_file_witness :
    safe_filename_unicode asciiWordChar pySpaceChar (fun s => s) " ".toList 120 =
        "file".toList ∧
      safe_filename_unicode asciiWordChar pySpaceChar (fun s => s) " ".toList 120 ≠
        "unnamed".toList :=
  (whitespace_only_gives_file asciiWordChar pySpaceChar (fun s => s) (fun _ _ => rfl)
      (by decide)).2.2 " ".toList (by decide) (by decide)

/-- Claim C1: after the merge phase, a record whose fetch task succeeded
has its icon field equal to the resolved path the task returned, or in
relative-path mode to the relative form of that path, falling back to the
absolute path when it cannot be made relative; a record whose task failed,
raised, or was never dispatched keeps its icon field byte-identical. -/
theorem process_icon_roundtrip {α : Type} (sp : Char → Bool) (rm : Bool)
    (rt : List Char → Option (List Char)) (run : Nat → TaskRun) (order : List Nat)
    (data : List (Bookmark α)) (j : Nat) (b : Bookmark α)
    (hord : order.Perm (taskIdx sp data 0)) (hj : data[j]? = some b) :
    (∀ info, run j = TaskRun.completed true info → pystrip sp b.icon ≠ [] →
      ((process_data sp rm rt run order data)[j]?).map Bookmark.icon =
        some (if rm then (match rt info with | some r => r | none => info) else info)) ∧
    ((pystrip sp b.icon = [] ∨ ∀ info, run j ≠ TaskRun.completed true info) →
      ((process_data sp rm rt run order data)[j]?).map Bookmark.icon = some b.icon) := by
  have hmem_iff : j ∈ taskIdx sp data 0 ↔ pystrip sp b.icon ≠ [] := by
    rw [mem_taskIdx]
    constructor
    · rintro ⟨k, b2, hb2, hjk, hne⟩
      have hk : k = j := by omega
      subst hk
      rw [hj] at hb2
      injection hb2 with hbb
      exact hbb ▸ hne
    · intro hne
      exact ⟨j, b, hj, by omega, hne⟩
  constructor
  · intro info hrun hne
    rw [getElem?_process_data sp rm rt run order data j hord]
    rw [if_pos (hmem_iff.mpr hne), hrun]
    simp [hj, newIconVal]
  · intro hfail
    rw [getElem?_process_data sp rm rt run order data j hord]
    rcases hfail with hempty | hnever
    · rw [if_neg (fun hmem => (hmem_iff.mp hmem) hempty)]
      simp [hj]
    · by_cases hmem : j ∈ taskIdx sp data 0
      · rw [if_pos hmem]
        cases hr : run j with
        | completed ok info =>
          cases ok with
          | true => exact absurd hr (hnever info)
          | false => simp [hj]
        | raised e => simp [hj]
      · rw [if_neg hmem]
        simp [hj]

theorem process_icon_roundtrip_witness :
    ((process_data pySpaceChar false (fun _ => none) demoRun [0, 2] demoData)[0]?).map
        Bookmark.icon = some "/icons/a.png".toList :=
  (process_icon_roundtrip pySpaceChar false (fun _ => none) demoRun [0, 2] demoData 0
      { title := "a".toList, url := "u".toList, icon := "http://x".toList, rest := () }
      (by decide) (by decide)).1 "/icons/a.png".toList (by decide) (by decide)

/-- Claim C2: the merged collection has the same record count and the same
positional order as the input, every field other than icon of every record
is unchanged (so any non-ASCII text in those fields is preserved as
loaded), and the result is the same for every completion order of the
dispatched tasks. -/
theorem process_shape_invariance {α : Type} (sp : Char → Bool) (rm : Bool)
    (rt : List Char → Option (List Char)) (run : Nat → TaskRun)
    (order1 order2 : List Nat) (data : List (Bookmark α))
    (h1 : order1.Perm (taskIdx sp data 0)) (h2 : order2.Perm (taskIdx sp data 0)) :
    (process_data sp rm rt run order1 data).length = data.length ∧
    (∀ j : Nat,
      ((process_data sp rm rt run order1 data)[j]?).map Bookmark.title =
        (data[j]?).map Bookmark.title ∧
      ((process_data sp rm rt run order1 data)[j]?).map Bookmark.url =
        (data[j]?).map Bookmark.url ∧
      ((process_data sp rm rt run order1 data)[j]?).map Bookmark.rest =
        (data[j]?).map Bookmark.rest) ∧
    process_data sp rm rt run order1 data = process_data sp rm rt run order2 data := by
  refine ⟨?_, ?_, ?_⟩
  · rw [process_data]
    exact length_mergeResults rm rt _ data
  · intro j
    rw [getElem?_process_data sp rm rt run order1 data j h1]
    by_cases hmem : j ∈ taskIdx sp data 0
    · rw [if_pos hmem]
      cases run j with
      | completed ok info =>
        cases ok with
        | true => refine ⟨?_, ?_, ?_⟩ <;> (cases data[j]? <;> rfl)
        | false => exact ⟨rfl, rfl, rfl⟩
      | raised e => exact ⟨rfl, rfl, rfl⟩
    · rw [if_neg hmem]
      exact ⟨rfl, rfl, rfl⟩
  · apply List.ext_getElem?
    intro n
    rw [getElem?_process_data sp rm rt run order1 data n h1,
      getElem?_process_data sp rm rt run order2 data n h2]

theorem process_shape_invariance_witness :
    process_data pySpaceChar false (fun _ => none) demoRun [0, 2] demoData =
      process_data pySpaceChar false (fun _ => none) demoRun [2, 0] demoData :=
  (process_shape_invariance pySpaceChar false (fun _ => none) demoRun [0, 2] [2, 0]
      demoData (by decide) (by decide)).2.2

/-- Claim C6: a record whose icon field is empty after trimming is never
dispatched (it is in no completion order, hence generates no fetch and no
network request), is recorded at scan time as a no_icon_url failure in the
results handed to the merge, and its icon field is unchanged in the
output. -/
theorem empty_icon_no_dispatch {α : Type} (sp : Char → Bool) (rm : Bool)
    (rt : List Char → Option (List Char)) (run : Nat → TaskRun) (order : List Nat)
    (data : List (Bookmark α)) (j : Nat) (b : Bookmark α)
    (hord : order.Perm (taskIdx sp data 0)) (hj : data[j]? = some b)
    (hempty : pystrip sp b.icon = []) :
    j ∉ taskIdx sp data 0 ∧ j ∉ order ∧
    (j, false, "no_icon_url".toList) ∈ allResults sp run order data ∧
    ((process_data sp rm rt run order data)[j]?).map Bookmark.icon = some b.icon := by
  have hnmem : j ∉ taskIdx sp data 0 := by
    intro hmem
    rcases (mem_taskIdx data 0 j).mp hmem with ⟨k, b2, hb2, hjk, hne⟩
    have hk : k = j := by omega
    subst hk
    rw [hj] at hb2
    injection hb2 with hbb
    exact (hbb ▸ hne) hempty
  refine ⟨hnmem, fun ho => hnmem (hord.mem_iff.mp ho), ?_, ?_⟩
  · have hsk := mem_skipResults data 0 j b hj hempty
    rw [allResults]
    exact List.mem_append_left _ (by simpa using hsk)
  · rw [getElem?_process_data sp rm rt run order data j hord, if_neg hnmem]
    simp [hj]

theorem empty_icon_no_dispatch_witness :
    1 ∉ taskIdx pySpaceChar demoData 0 ∧ 1 ∉ [0, 2] ∧
    (1, false, "no_icon_url".toList) ∈ allResults pySpaceChar demoRun [0, 2] demoData ∧
    ((process_data pySpaceChar false (fun _ => none) demoRun [0, 2] demoData)[1]?).map
        Bookmark.icon = some "  ".toList :=
  empty_icon_no_dispatch pySpaceChar false (fun _ => none) demoRun [0, 2] demoData 1
    { title := "b".toList, url := "v".toList, icon := "  ".toList, rest := () }
    (by decide) (by decide) (by decide)

/-- Claim C8: every input record index receives exactly one outcome in the
results list the merge phase consumes, which is assembled only after every
dispatched task has an entry in the completion order; and a task from
which an exception escapes is recorded as a failure entry carrying the
exception prefix (the TransportError form of the spec taxonomy) rather
than aborting the run. -/
theorem one_outcome_per_index {α : Type} (sp : Char → Bool) (run : Nat → TaskRun)
    (order : List Nat) (data : List (Bookmark α))
    (hord : order.Perm (taskIdx sp data 0)) :
    ((allResults sp run order data).map (fun r => r.1)).Perm (List.range data.length) ∧
    (∀ j, j < data.length →
      List.count j ((allResults sp run order data).map (fun r => r.1)) = 1) ∧
    (∀ i e, run i = TaskRun.raised e →
      record_result i (run i) = (i, false, ("exception:".toList ++ e))) := by
  have hperm : ((allResults sp run order data).map fun r => r.1).Perm
      (List.range data.length) := by
    rw [allResults_map_fst, List.range_eq_range']
    exact (List.Perm.append_left _ hord).trans (skip_task_perm sp data 0)
  refine ⟨hperm, ?_, ?_⟩
  · intro j hjlt
    rw [hperm.count_eq j]
    exact List.count_eq_one_of_mem (List.nodup_range _) (List.mem_range.mpr hjlt)
  · intro i e hr
    rw [hr]
    rfl

theorem one_outcome_per_index_witness :
    List.count 1 ((allResults pySpaceChar demoRun [0, 2] demoData).map fun r => r.1) = 1 :=
  (one_outcome_per_index pySpaceChar demoRun [0, 2] demoData (by decide)).2.1 1 (by decide)
